import Mathlib

/-!
Verification of the `filedup` duplicate-file finder (`src/filedup.py`).

The filesystem is modelled as a tree of directories and files; each file
carries its byte content together with fault flags for the OS calls that
touch it (`os.path.getsize`, `open`, `read`).  The pipeline of
`FileDup.run` is translated phase by phase: discovery
(`_find_files_in_path`), the size scan, the hash scan (`_hash`) and the
final grouping.  Python exceptions are modelled with `Except`: an
`OSError` can be caught by the `try`/`except OSError` blocks of the
source, while any other exception (`ZeroDivisionError` in
`Progressbar.add`, `TypeError` in the output code) propagates and kills
the run.  MD5 is modelled as an opaque digest function parameter
`hashFn` applied to the bytes fed to the digest.
-/

namespace Filedup

/-- Model of one byte of file content. -/
abbrev Byte := Nat

/-- Model of a filesystem path, as its list of components. -/
abbrev FPath := List String

/-- Model of one file: its byte content plus fault flags describing which
OS calls on it raise `OSError`.  `statFail` makes `os.path.getsize`
raise; `openFail` makes `open` raise; `readFailAfter = some k` makes the
`k`-th `f.read(4096)` call raise (counting from 0, the terminating empty
read included). -/
structure FileInfo where
  content : List Byte
  statFail : Bool := false
  openFail : Bool := false
  readFailAfter : Option Nat := none
deriving DecidableEq

mutual
/-- Model of a filesystem node: a regular file, a directory (whose `Bool`
says whether `os.listdir` on it raises `OSError`), or nothing at all
(a vanished path: `isfile`, `islink` and `isdir` all return `False`). -/
inductive FSTree where
  | file : FileInfo → FSTree
  | dir : Bool → FSForest → FSTree
  | missing : FSTree
/-- Children of a directory: named subtrees, in `os.listdir` order. -/
inductive FSForest where
  | nil : FSForest
  | cons : String → FSTree → FSForest → FSForest
end

/-- Appending two child lists (used only to state locality theorems). -/
def FSForest.append : FSForest → FSForest → FSForest
  | .nil, g => g
  | .cons n t rest, g => .cons n t (rest.append g)

/-- Looking up a child by name in a directory listing. -/
def FSForest.find? : FSForest → String → Option FSTree
  | .nil, _ => none
  | .cons name t rest, n => if name = n then some t else FSForest.find? rest n

/-- Path resolution relative to a tree, as the OS resolves a path string:
follow one component at a time through directories. -/
def lookupTree : FSTree → FPath → Option FSTree
  | t, [] => some t
  | .dir _ ch, n :: rest =>
      match ch.find? n with
      | some t => lookupTree t rest
      | none => none
  | .file _, _ :: _ => none
  | .missing, _ :: _ => none

/-- Model of `FileFilter.check`: an opaque predicate over a path. -/
abbrev FileFilter := FPath → Bool

/-- Model of `FileDup._check_file_filters`:
`all(f.check(file_path) for f in self.filters)`. -/
def checkFileFilters (filters : List FileFilter) (p : FPath) : Bool :=
  filters.all fun f => f p

/-- Model of an `OSError` reported on the side channel (stderr), tagged
with the operation that raised it and the failing path. -/
inductive OsErr where
  | listdirFail : FPath → OsErr
  | statFail : FPath → OsErr
  | readFail : FPath → OsErr
deriving DecidableEq

mutual
/-- Model of `FileDup._find_files_in_path` applied to the subtree sitting
at path `p`.  A file (or symlink) passing all filters is appended; a
vanished node is silently ignored; a directory is listed and its children
are walked in order, and the `OSError` raised by a failing `os.listdir`
is caught by the `except OSError` of the source and reported.  Returns
the discovered files and the side-channel errors, in traversal order. -/
def findFilesInPath (filters : List FileFilter) (p : FPath) :
    FSTree → List FPath × List OsErr
  | .file _ => if checkFileFilters filters p then ([p], []) else ([], [])
  | .missing => ([], [])
  | .dir listFail ch =>
      if listFail then ([], [.listdirFail p]) else findFilesInForest filters p ch
/-- The loop over `os.listdir(path)` inside `_find_files_in_path`:
recurse into every child; each recursive call catches its own errors, so
the loop always continues with the next sibling. -/
def findFilesInForest (filters : List FileFilter) (p : FPath) :
    FSForest → List FPath × List OsErr
  | .nil => ([], [])
  | .cons name t rest =>
      let r1 := findFilesInPath filters (p ++ [name]) t
      let r2 := findFilesInForest filters p rest
      (r1.1 ++ r2.1, r1.2 ++ r2.2)
end

/-- Model of one `self._find_files_in_path(path)` call on a configured
root path: resolve the path, then walk the subtree there.  A path that
resolves to nothing makes `isfile`, `islink` and `isdir` all return
`False`, so nothing happens. -/
def findRoot (filters : List FileFilter) (fs : FSTree) (p : FPath) :
    List FPath × List OsErr :=
  match lookupTree fs p with
  | some t => findFilesInPath filters p t
  | none => ([], [])

/-- Model of `os.path.getsize`: the byte length of the file at `p`, or an
`OSError`.  Directory paths never reach this call: the walker only ever
appends file nodes (symlinks to directories are outside this model). -/
def getsize (fs : FSTree) (p : FPath) : Except OsErr Nat :=
  match lookupTree fs p with
  | some (.file fi) =>
      if fi.statFail then .error (.statFail p) else .ok fi.content.length
  | _ => .error (.statFail p)

/-- Model of a Python exception escaping an expression.  `OSError` is the
only kind caught by the `try`/`except OSError` blocks of the source. -/
inductive PyErr where
  | osError : OsErr → PyErr
  | zeroDivisionError : PyErr
  | typeError : PyErr
deriving DecidableEq

/-- Model of `Progressbar`: the label (`_prefix`), the declared total
(`_max`) and the cumulative position (`_pos`).  `incs` is the history of
the `add` calls received, kept so that theorems can speak about the sum
of reported increments; `pos` is by construction the running sum of
`incs`.  The display-only fields (`_cur_k`, `_cur_n_sym`,
`_cur_per_mile`, rendering) are omitted, except for the division
performed when computing `_cur_k`. -/
structure Progressbar where
  label : String
  maxVal : Nat
  pos : Nat
  incs : List Nat
deriving DecidableEq

/-- Model of `Progressbar.add`: accumulate the increment, then compute
`_cur_k = _pos / _max`, which raises `ZeroDivisionError` whenever the
declared total is zero. -/
def Progressbar.add (b : Progressbar) (inc : Nat) : Except PyErr Progressbar :=
  if b.maxVal = 0 then .error .zeroDivisionError
  else .ok { b with pos := b.pos + inc, incs := b.incs ++ [inc] }

/-- Model of `FileDup._prb_add`: forward to the current progress bar only
when progress reporting is enabled. -/
def prbAdd (progress : Bool) (b : Progressbar) (inc : Nat) :
    Except PyErr Progressbar :=
  if progress then b.add inc else .ok b

/-- Fuelled chunking of a byte list into the successive results of
`f.read(4096)`; the fuel (always instantiated with the length) only makes
the recursion structural. -/
def chunksGo : Nat → List Byte → List (List Byte)
  | 0, _ => []
  | _ + 1, [] => []
  | fuel + 1, b :: rest =>
      ((b :: rest).take 4096) :: chunksGo fuel ((b :: rest).drop 4096)

/-- The sequence of non-empty chunks returned by `f.read(4096)` on a file
with the given content. -/
def chunksOf (l : List Byte) : List (List Byte) := chunksGo l.length l

/-- Model of the read loop of `FileDup._hash`: process the chunk
sequence, raising `OSError` at read call number `k` when
`failAt = some k` (calls are counted from `i`, and the terminating empty
read is a call too).  For each chunk, `ln = len(b)` is reported through
`_prb_add` — whose `ZeroDivisionError`, if any, propagates — then
`_hash_count_left` is decremented and the chunk is fed to the digest.
Returns the outcome, the updated bar and the final `_hash_count_left`;
`acc` is the bytes fed to the digest so far. -/
def hashChunks (progress : Bool) (p : FPath) :
    List (List Byte) → Option Nat → Nat → List Byte → Progressbar → Nat →
    (Except PyErr (List Byte)) × Progressbar × Nat
  | [], failAt, i, acc, bar, hcl =>
      if failAt = some i then (.error (.osError (.readFail p)), bar, hcl)
      else (.ok acc, bar, hcl)
  | c :: rest, failAt, i, acc, bar, hcl =>
      if failAt = some i then (.error (.osError (.readFail p)), bar, hcl)
      else
        match prbAdd progress bar c.length with
        | .error e => (.error e, bar, hcl)
        | .ok bar' =>
            hashChunks progress p rest failAt (i + 1) (acc ++ c) bar'
              (hcl - c.length)

/-- Model of `FileDup._hash file size`: set `_hash_count_left := size`,
open the file (an `OSError` here leaves `_hash_count_left` at `size`),
then stream it through the digest chunk by chunk.  Returns the bytes fed
to the digest (the digest itself is `hashFn` of these bytes, applied by
the caller, mirroring `md5.hexdigest()`), the updated bar and the final
`_hash_count_left`. -/
def hashFile (progress : Bool) (fs : FSTree) (p : FPath) (size : Nat)
    (bar : Progressbar) : (Except PyErr (List Byte)) × Progressbar × Nat :=
  match lookupTree fs p with
  | some (.file fi) =>
      if fi.openFail then (.error (.osError (.readFail p)), bar, size)
      else hashChunks progress p (chunksOf fi.content) fi.readFailAfter 0 [] bar size
  | _ => (.error (.osError (.readFail p)), bar, size)

/-- Model of `defaultdict(list)` access-and-append
(`d[k].append(v)`): appends to the entry of `k`, creating it at the end
on first touch, preserving key insertion order. -/
def dappend {κ α : Type} [DecidableEq κ] :
    List (κ × List α) → κ → α → List (κ × List α)
  | [], k, v => [(k, [v])]
  | (k', vs) :: rest, k, v =>
      if k = k' then (k', vs ++ [v]) :: rest else (k', vs) :: dappend rest k v

/-- Dictionary lookup in the association-list model; `[]` for a key that
was never touched. -/
def dget {κ α : Type} [DecidableEq κ] : List (κ × List α) → κ → List α
  | [], _ => []
  | (k', vs) :: rest, k => if k = k' then vs else dget rest k

/-- Model of the size-scan loop of `FileDup.run`:
`self.files_by_size[os.path.getsize(file)].append(file)` inside
`try`/`except OSError`/`finally`; a failing `getsize` is reported on the
side channel and the file dropped, and the `finally` block adds one unit
of progress per file regardless. -/
def sizeLoop (progress : Bool) (fs : FSTree) :
    List FPath → List (Nat × List FPath) → List OsErr → Progressbar →
    Except PyErr (List (Nat × List FPath) × List OsErr × Progressbar)
  | [], m, errs, bar => .ok (m, errs, bar)
  | f :: rest, m, errs, bar =>
      let step :=
        match getsize fs f with
        | .ok s => (dappend m s f, errs)
        | .error e => (m, errs ++ [e])
      match prbAdd progress bar 1 with
      | .error e => .error e
      | .ok bar' => sizeLoop progress fs rest step.1 step.2 bar'

/-- State threaded through the hash-scan loop: the
`potential_dup` map, the side-channel errors, the current progress bar
and the `_hash_count_left` instance field. -/
structure HashSt (D : Type) where
  pd : List ((D × Nat) × List FPath)
  errs : List OsErr
  bar : Progressbar
  hcl : Nat

/-- Model of the hash-scan loops of `FileDup.run`, flattened over the
(size, file) pairs of the candidate size classes: hash each file; on
success record it under the composite key `(digest, size)`; on `OSError`
report the error and flush `_hash_count_left` to the progress bar; a
`ZeroDivisionError` raised by a bar update propagates uncaught. -/
def hashLoop {D : Type} [DecidableEq D] (progress : Bool)
    (hashFn : List Byte → D) (fs : FSTree) :
    List (Nat × FPath) → HashSt D → Except PyErr (HashSt D)
  | [], st => .ok st
  | (size, f) :: rest, st =>
      match hashFile progress fs f size st.bar with
      | (.ok msg, bar', hcl') =>
          hashLoop progress hashFn fs rest
            { st with pd := dappend st.pd (hashFn msg, size) f,
                      bar := bar', hcl := hcl' }
      | (.error (.osError e), bar', hcl') =>
          match prbAdd progress bar' hcl' with
          | .error e2 => .error e2
          | .ok bar'' =>
              hashLoop progress hashFn fs rest
                { st with errs := st.errs ++ [e], bar := bar'', hcl := hcl' }
      | (.error e, _, _) => .error e

/-- The resolved configuration handed to `FileDup`: root paths, filters
and the `--progress` flag. -/
structure Config where
  paths : List FPath
  filters : List FileFilter
  progress : Bool

/-- The discovery phase of `FileDup.run`: walk every configured root,
accumulating one flat file list and the side-channel errors. -/
def discoverPhase (cfg : Config) (fs : FSTree) : List FPath × List OsErr :=
  cfg.paths.foldl
    (fun acc p =>
      let r := findRoot cfg.filters fs p
      (acc.1 ++ r.1, acc.2 ++ r.2))
    ([], [])

/-- The progress bar created for the size-scan phase:
`Progressbar('Getting file sizes', len(self.files))`. -/
def sizeBar0 (files : List FPath) : Progressbar :=
  { label := "Getting file sizes", maxVal := files.length, pos := 0, incs := [] }

/-- The candidate sizes
`list(size for size in self.files_by_size if len(self.files_by_size[size]) > 1)`:
keys in insertion order whose bucket has more than one member. -/
def dupsSizesOf (m : List (Nat × List FPath)) : List Nat :=
  (m.map Prod.fst).filter fun s => (dget m s).length > 1

/-- The byte total declared for the hash-phase progress bar:
`sum(size*len(self.files_by_size[size]) for size in dups_sizes)`. -/
def hashTotalOf (m : List (Nat × List FPath)) : Nat :=
  ((dupsSizesOf m).map fun s => s * (dget m s).length).sum

/-- The (size, file) pairs visited by the nested hash-scan loops
`for size in dups_sizes: for file in self.files_by_size[size]:`,
flattened in iteration order. -/
def candList (m : List (Nat × List FPath)) (ds : List Nat) :
    List (Nat × FPath) :=
  ds.flatMap fun s => (dget m s).map fun f => (s, f)

/-- The state at the start of the hash scan: empty `potential_dup`, the
freshly created bar `Progressbar('Finding duplicates', total)`, and the
class-attribute initial value `_hash_count_left = 0`. -/
def hashSt0 {D : Type} (m : List (Nat × List FPath)) : HashSt D :=
  { pd := [], errs := [],
    bar := { label := "Finding duplicates", maxVal := hashTotalOf m,
             pos := 0, incs := [] },
    hcl := 0 }

/-- The final filtering `dict(filter(lambda v: len(v[1]) > 1, ...))`:
keep only groups with at least two members. -/
def groupDup {D : Type} (pd : List ((D × Nat) × List FPath)) :
    List ((D × Nat) × List FPath) :=
  pd.filter fun kv => kv.2.length > 1

/-- Everything `FileDup.run` has computed when it reaches the output
code: the pipeline state after the GROUP step, plus both progress bars. -/
structure CoreResult (D : Type) where
  files : List FPath
  filesBySize : List (Nat × List FPath)
  dupsSizes : List Nat
  hashTotal : Nat
  potentialDup : List ((D × Nat) × List FPath)
  dup : List ((D × Nat) × List FPath)
  errs : List OsErr
  sizeBar : Progressbar
  hashBar : Progressbar

/-- Model of `FileDup.run` up to and including the GROUP step (the
output code is `runOutput` below).  An uncaught exception
(`ZeroDivisionError` from a progress-bar update) aborts the whole run
with `.error`. -/
def runCore {D : Type} [DecidableEq D] (hashFn : List Byte → D)
    (cfg : Config) (fs : FSTree) : Except PyErr (CoreResult D) :=
  let files := (discoverPhase cfg fs).1
  match sizeLoop cfg.progress fs files [] [] (sizeBar0 files) with
  | .error e => .error e
  | .ok (m, errs1, sizeBar1) =>
      match hashLoop cfg.progress hashFn fs (candList m (dupsSizesOf m))
          (hashSt0 m) with
      | .error e => .error e
      | .ok st =>
          .ok { files := files, filesBySize := m,
                dupsSizes := dupsSizesOf m, hashTotal := hashTotalOf m,
                potentialDup := st.pd, dup := groupDup st.pd,
                errs := (discoverPhase cfg fs).2 ++ errs1 ++ st.errs,
                sizeBar := sizeBar1, hashBar := st.bar }

/-- A Python value appearing in the output tuples: the digest is a `str`,
the size an `int`. -/
inductive PyVal where
  | vstr : String → PyVal
  | vint : Nat → PyVal

/-- The string content of a Python value, when it is a `str`. -/
def pyValStr? : PyVal → Option String
  | .vstr s => some s
  | .vint _ => none

/-- The string contents of a sequence of Python values, when all of them
are `str`. -/
def allStrs : List PyVal → Option (List String)
  | [] => some []
  | v :: rest =>
      match pyValStr? v, allStrs rest with
      | some s, some l => some (s :: l)
      | _, _ => none

/-- Model of Python `sep.join(seq)`: raises `TypeError` unless every item
of the sequence is a `str`. -/
def pyJoin (sep : String) (items : List PyVal) : Except PyErr String :=
  match allStrs items with
  | some l => .ok (String.intercalate sep l)
  | none => .error .typeError

/-- Rendering a path back to the path string the source manipulates. -/
def pathStr (p : FPath) : String := String.intercalate "/" p

/-- Model of the script-output loop of `FileDup.run`: for every group,
when `print_hash` is set, `'|'.join(info)` is applied to the
`(digest, size)` key tuple — whose second element is an `int` — before
the member paths are printed. -/
def scriptOut {D : Type} (toS : D → String) (printHash : Bool) :
    List ((D × Nat) × List FPath) → Except PyErr (List String)
  | [] => .ok []
  | (info, grp) :: rest =>
      if printHash then
        match pyJoin "|" [.vstr (toS info.1), .vint info.2] with
        | .error e => .error e
        | .ok s =>
            match scriptOut toS printHash rest with
            | .error e => .error e
            | .ok ls =>
                .ok ((s ++ "|") :: String.intercalate "|" (grp.map pathStr) :: ls)
      else
        match scriptOut toS printHash rest with
        | .error e => .error e
        | .ok ls => .ok (String.intercalate "|" (grp.map pathStr) :: ls)

/-- Model of the human-output branch of `FileDup.run`. -/
def humanOut {D : Type} (toS : D → String) (printHash : Bool)
    (dup : List ((D × Nat) × List FPath)) : List String :=
  if dup.isEmpty then ["No duplicate files"]
  else
    "Duplicate files:" ::
      dup.map fun kv =>
        (if printHash then toS kv.1.1 ++ ": " else "") ++
          String.intercalate ", " (kv.2.map pathStr)

/-- Model of the whole of `FileDup.run`: the pipeline followed by output
emission (`toS` renders a digest to the `str` Python holds). -/
def run {D : Type} [DecidableEq D] (hashFn : List Byte → D)
    (toS : D → String) (script printHash : Bool) (cfg : Config)
    (fs : FSTree) : Except PyErr (CoreResult D × List String) :=
  match runCore hashFn cfg fs with
  | .error e => .error e
  | .ok r =>
      if script then
        match scriptOut toS printHash r.dup with
        | .error e => .error e
        | .ok lines => .ok (r, lines)
      else .ok (r, humanOut toS printHash r.dup)

/-- The pure outcome of opening and fully reading the file at `p`:
`some content` when every read succeeds, `none` when `open` or one of the
reads raises `OSError`. -/
def readOutcome (fs : FSTree) (p : FPath) : Option (List Byte) :=
  match lookupTree fs p with
  | some (.file fi) =>
      if fi.openFail then none
      else
        match fi.readFailAfter with
        | some k =>
            if k ≤ (chunksOf fi.content).length then none else some fi.content
        | none => some fi.content
  | _ => none

/-- The key under which a hashed candidate lands in `potential_dup`, or
`none` when hashing it raises `OSError`. -/
def candKey {D : Type} (hashFn : List Byte → D) (fs : FSTree)
    (sf : Nat × FPath) : Option (D × Nat) :=
  (readOutcome fs sf.2).map fun c => (hashFn c, sf.1)

/-- The boolean test the size scan effectively applies to a file when
deciding membership of the bucket of size `s`. -/
def sizeIs (fs : FSTree) (s : Nat) (f : FPath) : Bool :=
  match getsize fs f with
  | .ok s' => s' == s
  | .error _ => false

/-- A file whose every OS interaction succeeds. -/
def FileInfo.clean (fi : FileInfo) : Prop :=
  fi.statFail = false ∧ fi.openFail = false ∧ fi.readFailAfter = none

/-- Two paths are members of one final duplicate group. -/
def sameGroup {D : Type} (dup : List ((D × Nat) × List FPath))
    (p q : FPath) : Prop :=
  ∃ kv, kv ∈ dup ∧ p ∈ kv.2 ∧ q ∈ kv.2

/-- Concrete digest function used in witnesses: the identity on byte
lists, trivially injective. -/
def idHash (c : List Byte) : List Byte := c

/-- Witness filesystem: a root directory holding two identical clean
files `x` and `y`, a file `z` whose very first read raises, a file `w`
that cannot be opened (all four of size 2, hence one candidate class), a
singleton-size file `s`, and a file `t` whose `getsize` raises. -/
def fsA : FSTree :=
  .dir false
    (.cons "x" (.file { content := [7, 8] })
      (.cons "y" (.file { content := [7, 8] })
        (.cons "z" (.file { content := [9, 9], readFailAfter := some 0 })
          (.cons "w" (.file { content := [1, 2], openFail := true })
            (.cons "s" (.file { content := [1, 2, 3] })
              (.cons "t" (.file { content := [4], statFail := true })
                .nil))))))

/-- Witness configuration scanning the root of `fsA` with progress
reporting enabled and no filters. -/
def cfgA : Config := { paths := [[]], filters := [], progress := true }

/-- Failing input for the fatality claim: a root directory with two
empty files, the first of which cannot be opened, scanned with progress
reporting enabled. -/
def fs5 : FSTree :=
  .dir false
    (.cons "a" (.file { content := [], openFail := true })
      (.cons "b" (.file { content := [] }) .nil))

/-- Configuration for the fatality counterexample. -/
def cfg5 : Config := { paths := [[]], filters := [], progress := true }

/-- Witness filesystem for the duplicated-root claim: a single
one-byte file. -/
def fs10 : FSTree := .dir false (.cons "f" (.file { content := [3] }) .nil)

/-! ### Association-list dictionary lemmas -/

theorem nodup_snoc {α : Type} (l : List α) (a : α) (h1 : l.Nodup)
    (h2 : a ∉ l) : (l ++ [a]).Nodup := by
  simp [List.nodup_append, List.Disjoint]
  refine ⟨h1, ?_⟩
  intro x hx hxa
  exact h2 (hxa ▸ hx)

theorem dget_dappend {κ α : Type} [DecidableEq κ] (m : List (κ × List α))
    (k : κ) (v : α) (k' : κ) :
    dget (dappend m k v) k' =
      if k' = k then dget m k' ++ [v] else dget m k' := by
  induction m with
  | nil => by_cases h : k' = k <;> simp [dappend, dget, h]
  | cons hd tl ih =>
      obtain ⟨k0, vs⟩ := hd
      by_cases hk : k = k0
      · subst hk
        by_cases h' : k' = k <;> simp [dappend, dget, h']
      · by_cases h' : k' = k0
        · have h2 : ¬k' = k := fun he => hk (he ▸ h')
          simp [dappend, dget, hk, h', h2, Ne.symm hk]
        · simp [dappend, dget, hk, h', ih]

theorem dget_entry_mem {κ α : Type} [DecidableEq κ] (m : List (κ × List α))
    (k : κ) (h : dget m k ≠ []) : (k, dget m k) ∈ m := by
  induction m with
  | nil => simp [dget] at h
  | cons hd tl ih =>
      obtain ⟨k0, vs⟩ := hd
      by_cases hk : k = k0
      · subst hk; simp [dget]
      · simp [dget, hk] at h ⊢
        exact ih h

theorem dget_ne_mem_keys {κ α : Type} [DecidableEq κ]
    (m : List (κ × List α)) (k : κ) (h : dget m k ≠ []) :
    k ∈ m.map Prod.fst :=
  List.mem_map.mpr ⟨(k, dget m k), dget_entry_mem m k h, rfl⟩

theorem dappend_keys {κ α : Type} [DecidableEq κ] (m : List (κ × List α))
    (k : κ) (v : α) :
    (dappend m k v).map Prod.fst =
      if k ∈ m.map Prod.fst then m.map Prod.fst
      else m.map Prod.fst ++ [k] := by
  induction m with
  | nil => simp [dappend]
  | cons hd tl ih =>
      obtain ⟨k0, vs⟩ := hd
      by_cases hk : k = k0
      · subst hk; simp [dappend]
      · by_cases hm : k ∈ tl.map Prod.fst <;>
          simp [dappend, hk, ih, hm, Ne.symm hk]

theorem dappend_keys_nodup {κ α : Type} [DecidableEq κ]
    (m : List (κ × List α)) (k : κ) (v : α)
    (h : (m.map Prod.fst).Nodup) :
    ((dappend m k v).map Prod.fst).Nodup := by
  rw [dappend_keys]
  by_cases hm : k ∈ m.map Prod.fst
  · simpa [hm] using h
  · simp only [hm, if_false]
    exact nodup_snoc _ _ h hm

theorem dget_eq_of_mem {κ α : Type} [DecidableEq κ] (m : List (κ × List α))
    (kv : κ × List α) (hnd : (m.map Prod.fst).Nodup) (hm : kv ∈ m) :
    dget m kv.1 = kv.2 := by
  induction m with
  | nil => simp at hm
  | cons hd tl ih =>
      obtain ⟨k0, vs⟩ := hd
      simp only [List.map_cons, List.nodup_cons] at hnd
      rcases List.mem_cons.mp hm with h | h
      · simp [h, dget]
      · have hne : ¬kv.1 = k0 := by
          intro he
          exact hnd.1 (he ▸ List.mem_map.mpr ⟨kv, h, rfl⟩)
        simp only [dget, hne, if_false]
        exact ih hnd.2 h

/-! ### Chunking lemmas -/

theorem chunksGo_flatten (fuel : Nat) :
    ∀ l : List Byte, l.length ≤ fuel → (chunksGo fuel l).flatten = l := by
  induction fuel with
  | zero =>
      intro l hl
      have h0 : l = [] := List.eq_nil_of_length_eq_zero (Nat.le_zero.mp hl)
      simp [h0, chunksGo]
  | succ n ih =>
      intro l hl
      cases l with
      | nil => simp [chunksGo]
      | cons b rest =>
          have hd : ((b :: rest).drop 4096).length ≤ n := by
            simp only [List.length_drop, List.length_cons]
            simp only [List.length_cons] at hl
            omega
          simp only [chunksGo, List.flatten_cons]
          rw [ih _ hd, List.take_append_drop]

theorem chunksOf_flatten (l : List Byte) : (chunksOf l).flatten = l :=
  chunksGo_flatten l.length l le_rfl

theorem chunksOf_length_sum (l : List Byte) :
    ((chunksOf l).map List.length).sum = l.length := by
  rw [← List.length_flatten, chunksOf_flatten]

/-! ### Progress-bar lemmas -/

theorem prbAdd_ok {progress : Bool} {b b' : Progressbar} {i : Nat}
    (h : prbAdd progress b i = .ok b') :
    b'.maxVal = b.maxVal ∧
      b'.incs = b.incs ++ (if progress then [i] else []) := by
  cases progress with
  | false =>
      simp [prbAdd] at h
      simp [← h]
  | true =>
      by_cases hm : b.maxVal = 0
      · simp [prbAdd, Progressbar.add, hm] at h
      · simp [prbAdd, Progressbar.add, hm] at h
        simp [← h]

theorem prbAdd_error {progress : Bool} {b : Progressbar} {i : Nat}
    {e : PyErr} (h : prbAdd progress b i = .error e) :
    e = .zeroDivisionError := by
  cases progress with
  | false => simp [prbAdd] at h
  | true =>
      by_cases hm : b.maxVal = 0
      · simp [prbAdd, Progressbar.add, hm] at h
        exact h.symm
      · simp [prbAdd, Progressbar.add, hm] at h

/-! ### `getsize` and `readOutcome` lemmas -/

theorem getsize_ok_elim {fs : FSTree} {p : FPath} {s : Nat}
    (h : getsize fs p = .ok s) :
    ∃ fi, lookupTree fs p = some (.file fi) ∧ fi.statFail = false ∧
      fi.content.length = s := by
  unfold getsize at h
  cases hl : lookupTree fs p with
  | none => rw [hl] at h; simp at h
  | some t =>
      rw [hl] at h
      cases t with
      | dir lf ch => simp at h
      | missing => simp at h
      | file fi =>
          refine ⟨fi, rfl, ?_⟩
          cases hsf : fi.statFail
          · simp [hsf] at h
            exact ⟨rfl, h⟩
          · simp [hsf] at h

theorem getsize_eq_ok {fs : FSTree} {p : FPath} {fi : FileInfo}
    (hl : lookupTree fs p = some (.file fi)) (hsf : fi.statFail = false) :
    getsize fs p = .ok fi.content.length := by
  unfold getsize
  rw [hl]
  simp [hsf]

theorem sizeIs_iff {fs : FSTree} {s : Nat} {f : FPath} :
    sizeIs fs s f = true ↔ getsize fs f = .ok s := by
  unfold sizeIs
  cases hg : getsize fs f with
  | ok s' => simp [beq_iff_eq]
  | error e => simp

theorem readOutcome_some_content {fs : FSTree} {p : FPath} {c : List Byte}
    {fi : FileInfo} (h : readOutcome fs p = some c)
    (hl : lookupTree fs p = some (.file fi)) : c = fi.content := by
  unfold readOutcome at h
  rw [hl] at h
  by_cases ho : fi.openFail
  · simp [ho] at h
  · simp only [ho, Bool.false_eq_true, if_neg, if_false] at h
    cases hf : fi.readFailAfter with
    | none => rw [hf] at h; simp at h; exact h.symm
    | some k =>
        rw [hf] at h
        by_cases hk : k ≤ (chunksOf fi.content).length <;> simp [hk] at h
        exact h.symm

theorem readOutcome_of_clean {fs : FSTree} {p : FPath} {fi : FileInfo}
    (hl : lookupTree fs p = some (.file fi)) (hc : fi.clean) :
    readOutcome fs p = some fi.content := by
  obtain ⟨_, h2, h3⟩ := hc
  unfold readOutcome
  rw [hl]
  simp [h2, h3]

/-! ### Read-loop lemmas -/

theorem hashChunks_spec {progress : Bool} {p : FPath} :
    ∀ (cl : List (List Byte)) (failAt : Option Nat) (i : Nat)
      (acc : List Byte) (bar : Progressbar) (hcl : Nat)
      {res : Except PyErr (List Byte)} {bar' : Progressbar} {hcl' : Nat},
      hashChunks progress p cl failAt i acc bar hcl = (res, bar', hcl') →
      ∃ c, c ≤ cl.flatten.length ∧ hcl' = hcl - c ∧
        bar'.maxVal = bar.maxVal ∧
        (progress = true → bar'.incs.sum = bar.incs.sum + c) ∧
        (∀ msg, res = .ok msg →
          msg = acc ++ cl.flatten ∧ c = cl.flatten.length) := by
  intro cl
  induction cl with
  | nil =>
      intro failAt i acc bar hcl res bar' hcl' h
      unfold hashChunks at h
      by_cases hf : failAt = some i <;>
        simp only [hf, if_pos, if_neg, if_true, if_false, reduceIte,
          Prod.mk.injEq] at h
      · obtain ⟨he, hb, hh⟩ := h
        subst he; subst hb; subst hh
        exact ⟨0, by simp, by simp, rfl, by simp, by simp⟩
      · obtain ⟨he, hb, hh⟩ := h
        subst he; subst hb; subst hh
        refine ⟨0, by simp, by simp, rfl, by simp, ?_⟩
        intro msg hmsg
        simp only [Except.ok.injEq] at hmsg
        subst hmsg
        simp
  | cons c0 rest ih =>
      intro failAt i acc bar hcl res bar' hcl' h
      unfold hashChunks at h
      by_cases hf : failAt = some i
      · simp only [hf, reduceIte, Prod.mk.injEq] at h
        obtain ⟨he, hb, hh⟩ := h
        subst he; subst hb; subst hh
        exact ⟨0, by simp, by simp, rfl, by simp, by simp⟩
      · simp only [hf, reduceIte] at h
        cases hpb : prbAdd progress bar c0.length with
        | error e =>
            rw [hpb] at h
            simp only [Prod.mk.injEq] at h
            obtain ⟨he, hb, hh⟩ := h
            subst he; subst hb; subst hh
            exact ⟨0, by simp, by simp, rfl, by simp, by simp⟩
        | ok bar1 =>
            rw [hpb] at h
            obtain ⟨c', hle, hhcl, hmax, hsum, hok⟩ :=
              ih failAt (i + 1) (acc ++ c0) bar1 (hcl - c0.length) h
            obtain ⟨hbm, hbi⟩ := prbAdd_ok hpb
            refine ⟨c0.length + c', ?_, ?_, ?_, ?_, ?_⟩
            · simp only [List.flatten_cons, List.length_append]
              omega
            · omega
            · rw [hmax, hbm]
            · intro hpr
              rw [hsum hpr, hbi, hpr]
              simp [List.sum_append]
              omega
            · intro msg hmsg
              obtain ⟨hm1, hm2⟩ := hok msg hmsg
              constructor
              · rw [hm1, List.flatten_cons, List.append_assoc]
              · simp only [List.flatten_cons, List.length_append]
                omega

theorem hashChunks_ok_failAt {progress : Bool} {p : FPath} :
    ∀ (cl : List (List Byte)) (failAt : Option Nat) (i : Nat)
      (acc : List Byte) (bar : Progressbar) (hcl : Nat)
      {msg : List Byte} {bar' : Progressbar} {hcl' : Nat},
      hashChunks progress p cl failAt i acc bar hcl = (.ok msg, bar', hcl') →
      ∀ k, failAt = some k → k < i ∨ i + cl.length < k := by
  intro cl
  induction cl with
  | nil =>
      intro failAt i acc bar hcl msg bar' hcl' h k hk
      subst hk
      unfold hashChunks at h
      by_cases hf : k = i
      · simp [hf] at h
      · simp only [List.length_nil, Nat.add_zero]
        omega
  | cons c0 rest ih =>
      intro failAt i acc bar hcl msg bar' hcl' h k hk
      subst hk
      unfold hashChunks at h
      by_cases hf : k = i
      · simp [hf] at h
      · simp only [Option.some.injEq, hf, reduceIte] at h
        cases hpb : prbAdd progress bar c0.length with
        | error e => rw [hpb] at h; simp at h
        | ok bar1 =>
            rw [hpb] at h
            have := ih _ (i + 1) (acc ++ c0) bar1 (hcl - c0.length) h k rfl
            simp only [List.length_cons]
            omega

theorem hashChunks_err_failAt {progress : Bool} {p : FPath} :
    ∀ (cl : List (List Byte)) (failAt : Option Nat) (i : Nat)
      (acc : List Byte) (bar : Progressbar) (hcl : Nat)
      {e : OsErr} {bar' : Progressbar} {hcl' : Nat},
      hashChunks progress p cl failAt i acc bar hcl =
        (.error (.osError e), bar', hcl') →
      ∃ k, failAt = some k ∧ k ≤ i + cl.length := by
  intro cl
  induction cl with
  | nil =>
      intro failAt i acc bar hcl e bar' hcl' h
      unfold hashChunks at h
      by_cases hf : failAt = some i
      · exact ⟨i, hf, by simp⟩
      · simp [hf] at h
  | cons c0 rest ih =>
      intro failAt i acc bar hcl e bar' hcl' h
      unfold hashChunks at h
      by_cases hf : failAt = some i
      · refine ⟨i, hf, by simp only [List.length_cons]; omega⟩
      · simp only [hf, reduceIte] at h
        cases hpb : prbAdd progress bar c0.length with
        | error e2 =>
            rw [hpb] at h
            have h2 := prbAdd_error hpb
            subst h2
            simp at h
        | ok bar1 =>
            rw [hpb] at h
            obtain ⟨k, hk, hle⟩ := ih _ (i + 1) (acc ++ c0) bar1 (hcl - c0.length) h
            refine ⟨k, hk, by simp only [List.length_cons]; omega⟩

theorem hashChunks_success {progress : Bool} {p : FPath} :
    ∀ (cl : List (List Byte)) (i : Nat) (acc : List Byte)
      (bar : Progressbar) (hcl : Nat),
      (progress = true → cl = [] ∨ bar.maxVal ≠ 0) →
      ∃ bar', hashChunks progress p cl none i acc bar hcl =
          (.ok (acc ++ cl.flatten), bar', hcl - cl.flatten.length) ∧
        bar'.maxVal = bar.maxVal := by
  intro cl
  induction cl with
  | nil =>
      intro i acc bar hcl _
      exact ⟨bar, by simp [hashChunks], rfl⟩
  | cons c0 rest ih =>
      intro i acc bar hcl hp
      have hpb : ∃ bar1, prbAdd progress bar c0.length = .ok bar1 ∧
          bar1.maxVal = bar.maxVal := by
        by_cases hpr : progress = true
        · have hm : bar.maxVal ≠ 0 := by
            rcases hp hpr with h | h
            · simp at h
            · exact h
          exact ⟨Progressbar.mk bar.label bar.maxVal (bar.pos + c0.length)
              (bar.incs ++ [c0.length]),
            by simp [prbAdd, Progressbar.add, hpr, hm], rfl⟩
        · simp only [Bool.not_eq_true] at hpr
          exact ⟨bar, by simp [prbAdd, hpr], rfl⟩
      obtain ⟨bar1, hpb1, hpb2⟩ := hpb
      obtain ⟨bar', hrec, hmax⟩ :=
        ih (i + 1) (acc ++ c0) bar1 (hcl - c0.length)
          (fun hpr => by
            rcases hp hpr with h | h
            · simp at h
            · exact Or.inr (hpb2 ▸ h))
      refine ⟨bar', ?_, by rw [hmax, hpb2]⟩
      unfold hashChunks
      simp [hpb1, hrec, List.append_assoc, Nat.sub_sub]

/-! ### `hashFile` lemmas -/

theorem hashFile_ok_readOutcome {progress : Bool} {fs : FSTree} {p : FPath}
    {size : Nat} {bar : Progressbar} {msg : List Byte} {bar' : Progressbar}
    {hcl' : Nat}
    (h : hashFile progress fs p size bar = (.ok msg, bar', hcl')) :
    readOutcome fs p = some msg := by
  unfold hashFile at h
  unfold readOutcome
  cases hl : lookupTree fs p with
  | none => rw [hl] at h; simp at h
  | some t =>
      rw [hl] at h
      cases t with
      | dir lf ch => simp at h
      | missing => simp at h
      | file fi =>
          by_cases ho : fi.openFail
          · simp [ho] at h
          · simp only [ho, Bool.false_eq_true, if_neg, if_false, reduceIte] at h
            obtain ⟨c, _, _, _, _, hok⟩ := hashChunks_spec _ _ _ _ _ _ h
            obtain ⟨hmsg, _⟩ := hok msg rfl
            rw [List.nil_append, chunksOf_flatten] at hmsg
            simp only [ho, Bool.false_eq_true, if_neg, if_false, reduceIte]
            cases hf : fi.readFailAfter with
            | none => rw [hmsg]
            | some k =>
                have hrange :=
                  hashChunks_ok_failAt _ _ _ _ _ _ h k hf
                have hk : ¬k ≤ (chunksOf fi.content).length := by omega
                simp only [hk, if_neg, if_false, reduceIte]
                rw [hmsg]

theorem hashFile_oserr_readOutcome {progress : Bool} {fs : FSTree}
    {p : FPath} {size : Nat} {bar : Progressbar} {e : OsErr}
    {bar' : Progressbar} {hcl' : Nat}
    (h : hashFile progress fs p size bar = (.error (.osError e), bar', hcl')) :
    readOutcome fs p = none := by
  unfold hashFile at h
  unfold readOutcome
  cases hl : lookupTree fs p with
  | none => simp
  | some t =>
      rw [hl] at h
      cases t with
      | dir lf ch => simp
      | missing => simp
      | file fi =>
          by_cases ho : fi.openFail
          · simp [ho]
          · simp only [ho, Bool.false_eq_true, if_neg, if_false, reduceIte] at h
            obtain ⟨k, hk, hle⟩ := hashChunks_err_failAt _ _ _ _ _ _ h
            simp only [ho, Bool.false_eq_true, if_neg, if_false, reduceIte, hk]
            have hk2 : k ≤ (chunksOf fi.content).length := by omega
            simp [hk2]

theorem hashFile_total {progress : Bool} {fs : FSTree} {p : FPath}
    {size : Nat} {bar : Progressbar} {res : Except PyErr (List Byte)}
    {bar' : Progressbar} {hcl' : Nat}
    (hg : getsize fs p = .ok size)
    (h : hashFile progress fs p size bar = (res, bar', hcl')) :
    bar'.maxVal = bar.maxVal ∧
      ∃ c, c ≤ size ∧ hcl' = size - c ∧
        (progress = true → bar'.incs.sum = bar.incs.sum + c) ∧
        (∀ msg, res = .ok msg → c = size) := by
  obtain ⟨fi, hl, hsf, hlen⟩ := getsize_ok_elim hg
  unfold hashFile at h
  rw [hl] at h
  by_cases ho : fi.openFail
  · simp only [ho, if_pos, if_true, reduceIte, Prod.mk.injEq] at h
    obtain ⟨he, hb, hh⟩ := h
    subst he; subst hb; subst hh
    exact ⟨rfl, 0, by simp, by simp, by simp, by simp⟩
  · simp only [ho, Bool.false_eq_true, if_neg, if_false, reduceIte] at h
    obtain ⟨c, hle, hhcl, hmax, hsum, hok⟩ := hashChunks_spec _ _ _ _ _ _ h
    rw [chunksOf_flatten, hlen] at hle
    refine ⟨hmax, c, hle, hhcl, hsum, ?_⟩
    intro msg hmsg
    obtain ⟨_, hm2⟩ := hok msg hmsg
    rw [hm2, chunksOf_flatten, hlen]

theorem hashFile_success {progress : Bool} {fs : FSTree} {p : FPath}
    {bar : Progressbar} (size : Nat) {fi : FileInfo}
    (hl : lookupTree fs p = some (.file fi)) (ho : fi.openFail = false)
    (hr : fi.readFailAfter = none)
    (hp : progress = true → fi.content = [] ∨ bar.maxVal ≠ 0) :
    ∃ bar', hashFile progress fs p size bar =
        (.ok fi.content, bar', size - fi.content.length) ∧
      bar'.maxVal = bar.maxVal := by
  unfold hashFile
  rw [hl]
  simp only [hr, ho, Bool.false_eq_true, reduceIte]
  have hp' : progress = true → chunksOf fi.content = [] ∨ bar.maxVal ≠ 0 := by
    intro hpr
    rcases hp hpr with h | h
    · exact Or.inl (by rw [h]; rfl)
    · exact Or.inr h
  obtain ⟨bar', hrun, hmax⟩ :=
    hashChunks_success (chunksOf fi.content) 0 [] bar size hp'
  rw [chunksOf_flatten, List.nil_append] at hrun
  exact ⟨bar', hrun, hmax⟩

/-! ### Size-scan loop lemmas -/

theorem sizeLoop_ok_bar {progress : Bool} {fs : FSTree} :
    ∀ (files : List FPath) (m : List (Nat × List FPath)) (errs : List OsErr)
      (bar : Progressbar) {m' : List (Nat × List FPath)} {errs' : List OsErr}
      {bar' : Progressbar},
      sizeLoop progress fs files m errs bar = .ok (m', errs', bar') →
      bar'.maxVal = bar.maxVal ∧
        (progress = true →
          bar'.incs = bar.incs ++ List.replicate files.length 1) := by
  intro files
  induction files with
  | nil =>
      intro m errs bar m' errs' bar' h
      unfold sizeLoop at h
      simp only [Except.ok.injEq, Prod.mk.injEq] at h
      obtain ⟨_, _, h3⟩ := h
      subst h3
      exact ⟨rfl, by simp⟩
  | cons f rest ih =>
      intro m errs bar m' errs' bar' h
      unfold sizeLoop at h
      cases hpb : prbAdd progress bar 1 with
      | error e => rw [hpb] at h; simp at h
      | ok bar1 =>
          rw [hpb] at h
          obtain ⟨hmax, hincs⟩ := ih _ _ _ h
          obtain ⟨hbm, hbi⟩ := prbAdd_ok hpb
          constructor
          · rw [hmax, hbm]
          · intro hpr
            rw [hincs hpr, hbi, hpr]
            simp [List.replicate_succ, List.append_assoc]

theorem sizeLoop_ok_dget {progress : Bool} {fs : FSTree} :
    ∀ (files : List FPath) (m : List (Nat × List FPath)) (errs : List OsErr)
      (bar : Progressbar) {m' : List (Nat × List FPath)} {errs' : List OsErr}
      {bar' : Progressbar},
      sizeLoop progress fs files m errs bar = .ok (m', errs', bar') →
      ∀ s, dget m' s = dget m s ++ files.filter (sizeIs fs s) := by
  intro files
  induction files with
  | nil =>
      intro m errs bar m' errs' bar' h s
      unfold sizeLoop at h
      simp only [Except.ok.injEq, Prod.mk.injEq] at h
      obtain ⟨h1, _, _⟩ := h
      subst h1
      simp
  | cons f rest ih =>
      intro m errs bar m' errs' bar' h s
      unfold sizeLoop at h
      cases hpb : prbAdd progress bar 1 with
      | error e => rw [hpb] at h; simp at h
      | ok bar1 =>
          rw [hpb] at h
          cases hg : getsize fs f with
          | ok s0 =>
              rw [hg] at h
              have hrec := ih (dappend m s0 f) errs bar1 h s
              rw [hrec, dget_dappend]
              by_cases hs : s0 = s
              · subst hs
                simp [List.filter_cons, sizeIs, hg, List.append_assoc]
              · have hs2 : ¬s = s0 := fun he => hs he.symm
                simp [List.filter_cons, sizeIs, hg, hs, hs2]
          | error e =>
              rw [hg] at h
              have hrec := ih m (errs ++ [e]) bar1 h s
              rw [hrec]
              simp [List.filter_cons, sizeIs, hg]

/-! ### Hash-scan loop lemmas -/

theorem hashLoop_ok_bar {D : Type} [DecidableEq D] {progress : Bool}
    {hashFn : List Byte → D} {fs : FSTree} :
    ∀ (cands : List (Nat × FPath)) (st : HashSt D) {st' : HashSt D},
      hashLoop progress hashFn fs cands st = .ok st' →
      (∀ sf ∈ cands, getsize fs sf.2 = .ok sf.1) →
      st'.bar.maxVal = st.bar.maxVal ∧
        (progress = true →
          st'.bar.incs.sum = st.bar.incs.sum + (cands.map Prod.fst).sum) := by
  intro cands
  induction cands with
  | nil =>
      intro st st' h _
      unfold hashLoop at h
      simp only [Except.ok.injEq] at h
      subst h
      exact ⟨rfl, by simp⟩
  | cons sf rest ih =>
      intro st st' h hg
      obtain ⟨size, f⟩ := sf
      have hgf : getsize fs f = .ok size := hg (size, f) (List.mem_cons_self _ _)
      have hgrest : ∀ sf ∈ rest, getsize fs sf.2 = .ok sf.1 :=
        fun sf hsf => hg sf (List.mem_cons_of_mem _ hsf)
      unfold hashLoop at h
      rcases hhf : hashFile progress fs f size st.bar with ⟨res, bar', hcl'⟩
      rw [hhf] at h
      obtain ⟨hfmax, c, hcle, hchcl, hcsum, hcok⟩ := hashFile_total hgf hhf
      cases res with
      | ok msg =>
          dsimp only at h
          obtain ⟨hmax, hsum⟩ := ih _ h hgrest
          constructor
          · rw [hmax]; exact hfmax
          · intro hpr
            rw [hsum hpr]
            simp only
            rw [hcsum hpr, hcok msg rfl]
            simp [List.map_cons, List.sum_cons]
            omega
      | error e =>
          cases e with
          | osError e0 =>
              dsimp only at h
              cases hpb : prbAdd progress bar' hcl' with
              | error e2 => rw [hpb] at h; simp at h
              | ok bar'' =>
                  rw [hpb] at h
                  obtain ⟨hmax, hsum⟩ := ih _ h hgrest
                  obtain ⟨hbm, hbi⟩ := prbAdd_ok hpb
                  constructor
                  · rw [hmax]
                    try dsimp only
                    rw [hbm, hfmax]
                  · intro hpr
                    rw [hsum hpr]
                    try dsimp only
                    rw [hbi, hpr]
                    simp only [reduceIte, List.sum_append, List.map_cons,
                      List.sum_cons, List.sum_nil]
                    rw [hcsum hpr, hchcl]
                    omega
          | zeroDivisionError => simp at h
          | typeError => simp at h

theorem hashLoop_ok_dget {D : Type} [DecidableEq D] {progress : Bool}
    {hashFn : List Byte → D} {fs : FSTree} :
    ∀ (cands : List (Nat × FPath)) (st : HashSt D) {st' : HashSt D},
      hashLoop progress hashFn fs cands st = .ok st' →
      ∀ key, dget st'.pd key = dget st.pd key ++
        ((cands.filter fun sf =>
          decide (candKey hashFn fs sf = some key)).map Prod.snd) := by
  intro cands
  induction cands with
  | nil =>
      intro st st' h key
      unfold hashLoop at h
      simp only [Except.ok.injEq] at h
      subst h
      simp
  | cons sf rest ih =>
      intro st st' h key
      obtain ⟨size, f⟩ := sf
      unfold hashLoop at h
      rcases hhf : hashFile progress fs f size st.bar with ⟨res, bar', hcl'⟩
      rw [hhf] at h
      cases res with
      | ok msg =>
          dsimp only at h
          have hck : candKey hashFn fs (size, f) = some (hashFn msg, size) := by
            unfold candKey
            rw [hashFile_ok_readOutcome hhf]
            rfl
          have hrec := ih _ h key
          simp only at hrec
          rw [hrec, dget_dappend]
          by_cases hkey : key = (hashFn msg, size)
          · simp [List.filter_cons, hck, hkey, List.append_assoc]
          · have hkey2 : ¬(hashFn msg, size) = key := fun he => hkey he.symm
            simp [List.filter_cons, hck, hkey, hkey2]
      | error e =>
          cases e with
          | osError e0 =>
              dsimp only at h
              have hck : candKey hashFn fs (size, f) = none := by
                unfold candKey
                rw [hashFile_oserr_readOutcome hhf]
                rfl
              cases hpb : prbAdd progress bar' hcl' with
              | error e2 => rw [hpb] at h; simp at h
              | ok bar'' =>
                  rw [hpb] at h
                  have hrec := ih _ h key
                  simp only at hrec
                  rw [hrec]
                  simp [List.filter_cons, hck]
          | zeroDivisionError => simp at h
          | typeError => simp at h

theorem hashLoop_ok_nodup {D : Type} [DecidableEq D] {progress : Bool}
    {hashFn : List Byte → D} {fs : FSTree} :
    ∀ (cands : List (Nat × FPath)) (st : HashSt D) {st' : HashSt D},
      hashLoop progress hashFn fs cands st = .ok st' →
      (st.pd.map Prod.fst).Nodup → (st'.pd.map Prod.fst).Nodup := by
  intro cands
  induction cands with
  | nil =>
      intro st st' h hnd
      unfold hashLoop at h
      simp only [Except.ok.injEq] at h
      subst h
      exact hnd
  | cons sf rest ih =>
      intro st st' h hnd
      obtain ⟨size, f⟩ := sf
      unfold hashLoop at h
      rcases hhf : hashFile progress fs f size st.bar with ⟨res, bar', hcl'⟩
      rw [hhf] at h
      cases res with
      | ok msg =>
          dsimp only at h
          exact ih _ h (dappend_keys_nodup _ _ _ hnd)
      | error e =>
          cases e with
          | osError e0 =>
              dsimp only at h
              cases hpb : prbAdd progress bar' hcl' with
              | error e2 => rw [hpb] at h; simp at h
              | ok bar'' =>
                  refine ih (HashSt.mk st.pd (st.errs ++ [e0]) bar'' hcl') ?_ hnd
                  rw [hpb] at h
                  exact h
          | zeroDivisionError => simp at h
          | typeError => simp at h

/-! ### Pipeline decomposition and counting helpers -/

theorem runCore_ok_elim {D : Type} [DecidableEq D] {hashFn : List Byte → D}
    {cfg : Config} {fs : FSTree} {r : CoreResult D}
    (h : runCore hashFn cfg fs = .ok r) :
    ∃ m errs1 sizeBar1 st,
      sizeLoop cfg.progress fs (discoverPhase cfg fs).1 [] []
          (sizeBar0 (discoverPhase cfg fs).1) = .ok (m, errs1, sizeBar1) ∧
      hashLoop cfg.progress hashFn fs (candList m (dupsSizesOf m))
          (hashSt0 m) = .ok st ∧
      r = { files := (discoverPhase cfg fs).1, filesBySize := m,
            dupsSizes := dupsSizesOf m, hashTotal := hashTotalOf m,
            potentialDup := st.pd, dup := groupDup st.pd,
            errs := (discoverPhase cfg fs).2 ++ errs1 ++ st.errs,
            sizeBar := sizeBar1, hashBar := st.bar } := by
  unfold runCore at h
  dsimp only at h
  cases hsl : sizeLoop cfg.progress fs (discoverPhase cfg fs).1 [] []
      (sizeBar0 (discoverPhase cfg fs).1) with
  | error e => rw [hsl] at h; simp at h
  | ok out =>
      obtain ⟨m, errs1, sizeBar1⟩ := out
      rw [hsl] at h
      dsimp only at h
      cases hhl : hashLoop cfg.progress hashFn fs
          (candList m (dupsSizesOf m)) (hashSt0 m) with
      | error e => rw [hhl] at h; simp at h
      | ok st =>
          rw [hhl] at h
          dsimp only at h
          simp only [Except.ok.injEq] at h
          exact ⟨m, errs1, sizeBar1, st, rfl, hhl, h.symm⟩

theorem sum_replicate_one (n : Nat) : (List.replicate n 1).sum = n := by
  induction n with
  | zero => simp
  | succ k ih => simp [List.replicate_succ, ih, Nat.add_comm]

theorem sum_map_const {α : Type} (l : List α) (s : Nat) :
    (l.map fun _ => s).sum = s * l.length := by
  induction l with
  | nil => simp
  | cons a tl ih =>
      simp only [List.map_cons, List.sum_cons, List.length_cons, ih,
        Nat.mul_succ]
      omega

theorem candList_getsize {fs : FSTree} {files : List FPath}
    {m : List (Nat × List FPath)}
    (hm : ∀ s, dget m s = files.filter (sizeIs fs s)) :
    ∀ sf ∈ candList m (dupsSizesOf m), getsize fs sf.2 = .ok sf.1 := by
  intro sf hsf
  unfold candList at hsf
  rw [List.mem_flatMap] at hsf
  obtain ⟨s, _, hsf2⟩ := hsf
  rw [List.mem_map] at hsf2
  obtain ⟨f, hf, he⟩ := hsf2
  subst he
  rw [hm s, List.mem_filter] at hf
  exact sizeIs_iff.mp hf.2

theorem candList_fst_sum (m : List (Nat × List FPath)) (ds : List Nat) :
    ((candList m ds).map Prod.fst).sum =
      (ds.map fun s => s * (dget m s).length).sum := by
  induction ds with
  | nil => simp [candList]
  | cons s rest ih =>
      unfold candList at ih ⊢
      simp only [List.flatMap_cons, List.map_append, List.sum_append,
        List.map_cons, List.sum_cons]
      rw [List.map_map]
      have hc : (Prod.fst ∘ fun f : FPath => (s, f)) = fun _ => s := rfl
      rw [hc, sum_map_const, ih]

theorem one_lt_length_of_two_mem {α : Type} {l : List α} {a b : α}
    (ha : a ∈ l) (hb : b ∈ l) (hab : a ≠ b) : 1 < l.length := by
  cases l with
  | nil => simp at ha
  | cons x tl =>
      cases tl with
      | nil =>
          simp at ha hb
          exact absurd (ha.trans hb.symm) hab
      | cons y tl2 => simp [List.length_cons]

theorem prbAdd_isOk (progress : Bool) (b : Progressbar) (i : Nat)
    (hm : b.maxVal ≠ 0) :
    ∃ b', prbAdd progress b i = .ok b' ∧ b'.maxVal = b.maxVal := by
  cases progress with
  | false => exact ⟨b, by simp [prbAdd], rfl⟩
  | true =>
      exact ⟨Progressbar.mk b.label b.maxVal (b.pos + i) (b.incs ++ [i]),
        by simp [prbAdd, Progressbar.add, hm], rfl⟩

/-! ### Discovery lemmas -/

theorem checkFileFilters_nil (p : FPath) : checkFileFilters [] p = true := rfl

mutual
theorem findFilesInPath_filter_comm (filters : List FileFilter) (p : FPath) :
    ∀ t : FSTree,
      findFilesInPath filters p t =
        ((findFilesInPath [] p t).1.filter (checkFileFilters filters),
         (findFilesInPath [] p t).2)
  | .file fi => by
      by_cases hc : checkFileFilters filters p <;>
        simp [findFilesInPath, hc, checkFileFilters_nil]
  | .missing => by simp [findFilesInPath]
  | .dir lf ch => by
      cases lf with
      | false =>
          simp only [findFilesInPath, Bool.false_eq_true, if_neg, if_false,
            reduceIte]
          exact findFilesInForest_filter_comm filters p ch
      | true => simp [findFilesInPath]
theorem findFilesInForest_filter_comm (filters : List FileFilter) (p : FPath) :
    ∀ f : FSForest,
      findFilesInForest filters p f =
        ((findFilesInForest [] p f).1.filter (checkFileFilters filters),
         (findFilesInForest [] p f).2)
  | .nil => by simp [findFilesInForest]
  | .cons n t rest => by
      have h1 := findFilesInPath_filter_comm filters (p ++ [n]) t
      have h2 := findFilesInForest_filter_comm filters p rest
      simp [findFilesInForest, h1, h2, List.filter_append]
end

theorem findForest_append_dirfail (filters : List FileFilter) (p : FPath)
    (name : String) (ch : FSForest) (post : FSForest) :
    ∀ pre : FSForest,
      findFilesInForest filters p
          (pre.append (.cons name (.dir true ch) post)) =
        ((findFilesInForest filters p pre).1 ++
            (findFilesInForest filters p post).1,
         (findFilesInForest filters p pre).2 ++
            .listdirFail (p ++ [name]) :: (findFilesInForest filters p post).2)
  | .nil => by
      simp [FSForest.append, findFilesInForest, findFilesInPath]
  | .cons n t rest => by
      have ih := findForest_append_dirfail filters p name ch post rest
      simp [FSForest.append, findFilesInForest, ih, List.append_assoc]

/-! ### Claim theorems -/

/-- C1: for every run with progress reporting enabled that produces a
result, the sum of all progress increments reported during the hash phase
(per-chunk byte lengths plus, for failing files, the flushed
remaining-unread-byte count) equals the byte total precomputed before
hashing starts — the declared bar total — which is the sum over candidate
size classes of size times member count, even when files fail mid-read or
fail to open. -/
theorem c1_hash_progress_total {D : Type} [DecidableEq D]
    {hashFn : List Byte → D} {cfg : Config} {fs : FSTree} {r : CoreResult D}
    (hr : runCore hashFn cfg fs = .ok r) (hpr : cfg.progress = true) :
    r.hashBar.incs.sum = r.hashTotal ∧ r.hashBar.maxVal = r.hashTotal ∧
      r.hashTotal =
        (r.dupsSizes.map fun s => s * (dget r.filesBySize s).length).sum := by
  obtain ⟨m, errs1, sizeBar1, st, hsl, hhl, hre⟩ := runCore_ok_elim hr
  have h1 : r.hashBar = st.bar := by rw [hre]
  have h2 : r.hashTotal = hashTotalOf m := by rw [hre]
  have h3 : r.dupsSizes = dupsSizesOf m := by rw [hre]
  have h4 : r.filesBySize = m := by rw [hre]
  have hdg := sizeLoop_ok_dget _ _ _ _ hsl
  have hdg' : ∀ s, dget m s =
      (discoverPhase cfg fs).1.filter (sizeIs fs s) := by
    intro s
    rw [hdg s]
    simp [dget]
  obtain ⟨hmax, hsum⟩ := hashLoop_ok_bar _ _ hhl (candList_getsize hdg')
  refine ⟨?_, ?_, ?_⟩
  · rw [h1, h2, hsum hpr, candList_fst_sum]
    simp [hashSt0, hashTotalOf]
  · rw [h1, h2, hmax]
    rfl
  · rw [h2, h3, h4]
    rfl

/-- Witness for C1: on `fsA` (one candidate class of four 2-byte files,
one failing at its first read and one failing to open) the hash-phase
increments sum to the precomputed total. -/
theorem c1_hash_progress_total_wit :
    ∃ r, runCore idHash cfgA fsA = .ok r ∧
      r.hashBar.incs.sum = r.hashTotal := by
  obtain ⟨r, hr⟩ : ∃ r, runCore idHash cfgA fsA = .ok r := ⟨_, rfl⟩
  exact ⟨r, hr, (c1_hash_progress_total hr rfl).1⟩

/-- C4: every group in the final result mapping has at least two member
paths: keys whose path sequence has length 1 are removed before the
result is emitted. -/
theorem c4_groups_at_least_two {D : Type} [DecidableEq D]
    {hashFn : List Byte → D} {cfg : Config} {fs : FSTree} {r : CoreResult D}
    (hr : runCore hashFn cfg fs = .ok r) :
    ∀ kv ∈ r.dup, 2 ≤ kv.2.length := by
  obtain ⟨m, errs1, sizeBar1, st, hsl, hhl, hre⟩ := runCore_ok_elim hr
  have hdup : r.dup = groupDup st.pd := by rw [hre]
  rw [hdup]
  intro kv hkv
  unfold groupDup at hkv
  rw [List.mem_filter] at hkv
  have h2 := hkv.2
  simp at h2
  omega

/-- Witness for C4: the single final group of `fsA` has two members. -/
theorem c4_groups_at_least_two_wit :
    ∃ r, runCore idHash cfgA fsA = .ok r ∧ ∀ kv ∈ r.dup, 2 ≤ kv.2.length := by
  obtain ⟨r, hr⟩ : ∃ r, runCore idHash cfgA fsA = .ok r := ⟨_, rfl⟩
  exact ⟨r, hr, c4_groups_at_least_two hr⟩

/-- C5 (code bug): with progress reporting enabled, a root holding two
empty files the first of which cannot be opened makes the run die with an
uncaught `ZeroDivisionError`: the hash-phase bar total is 0, and the
`except OSError` handler's flush calls `Progressbar.add`, which divides
by the zero total.  The claimed invariant — no discovery/size/hash error
is ever fatal — fails on this input. -/
theorem c5_zero_division_crash :
    runCore idHash cfg5 fs5 = .error .zeroDivisionError := by rfl

/-- C7: with progress reporting enabled, every run that produces a result
reported exactly one unit of progress per discovered file during the size
scan — stat failures included — so the increments sum to the declared
total, the discovered-file count. -/
theorem c7_size_scan_progress {D : Type} [DecidableEq D]
    {hashFn : List Byte → D} {cfg : Config} {fs : FSTree} {r : CoreResult D}
    (hr : runCore hashFn cfg fs = .ok r) (hpr : cfg.progress = true) :
    r.sizeBar.incs = List.replicate r.files.length 1 ∧
      r.sizeBar.maxVal = r.files.length ∧
      r.sizeBar.incs.sum = r.files.length := by
  obtain ⟨m, errs1, sizeBar1, st, hsl, hhl, hre⟩ := runCore_ok_elim hr
  have h1 : r.sizeBar = sizeBar1 := by rw [hre]
  have h2 : r.files = (discoverPhase cfg fs).1 := by rw [hre]
  obtain ⟨hmax, hincs⟩ := sizeLoop_ok_bar _ _ _ _ hsl
  have hi := hincs hpr
  rw [h1, h2]
  refine ⟨?_, ?_, ?_⟩
  · rw [hi]
    rfl
  · rw [hmax]
    rfl
  · rw [hi]
    simp [sizeBar0, sum_replicate_one]

/-- Witness for C7: on `fsA` (six discovered files, one with a failing
stat) the size-scan bar received one unit per file. -/
theorem c7_size_scan_progress_wit :
    ∃ r, runCore idHash cfgA fsA = .ok r ∧
      r.sizeBar.incs.sum = r.files.length := by
  obtain ⟨r, hr⟩ : ∃ r, runCore idHash cfgA fsA = .ok r := ⟨_, rfl⟩
  exact ⟨r, hr, (c7_size_scan_progress hr rfl).2.2⟩

/-- C6: during discovery, a directory whose listing raises causes only
that subtree to be skipped and one side-channel report; siblings before
and after it contribute exactly what they would contribute anyway, and
the walk itself never aborts (it is a total function returning the pair
below). -/
theorem c6_walk_error_locality (filters : List FileFilter) (p : FPath)
    (pre post : FSForest) (name : String) (ch : FSForest) :
    findFilesInForest filters p
        (pre.append (.cons name (.dir true ch) post)) =
      ((findFilesInForest filters p pre).1 ++
          (findFilesInForest filters p post).1,
       (findFilesInForest filters p pre).2 ++
          .listdirFail (p ++ [name]) :: (findFilesInForest filters p post).2) :=
  findForest_append_dirfail filters p name ch post pre

/-- Unpacking membership in the path list recorded under one key of
`potential_dup`. -/
theorem mem_candFiltered {D : Type} [DecidableEq D] {hashFn : List Byte → D}
    {fs : FSTree} {cl : List (Nat × FPath)} {key : D × Nat} {q : FPath}
    (hq : q ∈ (cl.filter fun sf =>
      decide (candKey hashFn fs sf = some key)).map Prod.snd) :
    ∃ s, (s, q) ∈ cl ∧ candKey hashFn fs (s, q) = some key := by
  rw [List.mem_map] at hq
  obtain ⟨sf, hsf, he⟩ := hq
  rw [List.mem_filter] at hsf
  obtain ⟨h1, h2⟩ := hsf
  simp only [decide_eq_true_eq] at h2
  obtain ⟨s, f⟩ := sf
  dsimp only at he
  subst he
  exact ⟨s, h1, h2⟩

/-- Unpacking a successful `candKey`. -/
theorem candKey_some_elim {D : Type} {hashFn : List Byte → D} {fs : FSTree}
    {s : Nat} {q : FPath} {key : D × Nat}
    (h : candKey hashFn fs (s, q) = some key) :
    ∃ c, readOutcome fs q = some c ∧ key = (hashFn c, s) := by
  unfold candKey at h
  dsimp only at h
  cases hro : readOutcome fs q with
  | none => rw [hro] at h; simp at h
  | some c =>
      rw [hro] at h
      simp only [Option.map_some', Option.some.injEq] at h
      exact ⟨c, rfl, h.symm⟩

/-- Unpacking membership in a candidate list. -/
theorem mem_candList_elim {m : List (Nat × List FPath)} {ds : List Nat}
    {s : Nat} {q : FPath} (h : (s, q) ∈ candList m ds) :
    s ∈ ds ∧ q ∈ dget m s := by
  unfold candList at h
  rw [List.mem_flatMap] at h
  obtain ⟨s', hs', h2⟩ := h
  rw [List.mem_map] at h2
  obtain ⟨f, hf, he⟩ := h2
  obtain ⟨he1, he2⟩ := Prod.mk.injEq .. ▸ he
  subst he1
  subst he2
  exact ⟨hs', hf⟩

/-- C3: two files with distinct byte sizes never appear in one final
duplicate group: the grouping key is the composite (digest, size), and
every member path of a final group resolves to a file whose byte length
is exactly the size component of the group key. -/
theorem c3_distinct_sizes_separated {D : Type} [DecidableEq D]
    {hashFn : List Byte → D} {cfg : Config} {fs : FSTree} {r : CoreResult D}
    (hr : runCore hashFn cfg fs = .ok r) :
    ∀ kv ∈ r.dup, ∀ q ∈ kv.2, ∀ fq, lookupTree fs q = some (.file fq) →
      fq.content.length = kv.1.2 := by
  obtain ⟨m, errs1, sizeBar1, st, hsl, hhl, hre⟩ := runCore_ok_elim hr
  have hdup : r.dup = groupDup st.pd := by rw [hre]
  rw [hdup]
  intro kv hkv q hq fq hlq
  have hkvpd : kv ∈ st.pd := List.mem_of_mem_filter hkv
  have hnd : (st.pd.map Prod.fst).Nodup := by
    refine hashLoop_ok_nodup _ _ hhl ?_
    simp [hashSt0]
  have hget := dget_eq_of_mem st.pd kv hnd hkvpd
  have hdg := hashLoop_ok_dget _ _ hhl kv.1
  rw [hget] at hdg
  rw [hdg] at hq
  simp only [hashSt0] at hq
  rw [show dget ([] : List ((D × Nat) × List FPath)) kv.1 = [] from rfl,
    List.nil_append] at hq
  obtain ⟨s, hcand, hkey⟩ := mem_candFiltered hq
  obtain ⟨c, hro, hke⟩ := candKey_some_elim hkey
  obtain ⟨hsds, hqm⟩ := mem_candList_elim hcand
  have hdgm := sizeLoop_ok_dget _ _ _ _ hsl s
  rw [show dget ([] : List (Nat × List FPath)) s = [] from rfl,
    List.nil_append] at hdgm
  rw [hdgm, List.mem_filter] at hqm
  have hgs := sizeIs_iff.mp hqm.2
  obtain ⟨fi, hlf, _, hlen⟩ := getsize_ok_elim hgs
  rw [hlq] at hlf
  have hfi : fq = fi := by
    simp only [Option.some.injEq, FSTree.file.injEq] at hlf
    exact hlf
  rw [hke]
  dsimp only
  rw [hfi]
  exact hlen

/-- Witness for C3: the one final group of `fsA` is non-empty and all
its members resolve to files of the key size. -/
theorem c3_distinct_sizes_separated_wit :
    ∃ r, runCore idHash cfgA fsA = .ok r ∧ r.dup ≠ [] ∧
      ∀ kv ∈ r.dup, ∀ q ∈ kv.2, ∀ fq, lookupTree fsA q = some (.file fq) →
        fq.content.length = kv.1.2 := by
  obtain ⟨r, hr⟩ : ∃ r, runCore idHash cfgA fsA = .ok r := ⟨_, rfl⟩
  have hv := Except.ok.inj hr
  refine ⟨r, hr, ?_, c3_distinct_sizes_separated hr⟩
  rw [← hv]
  decide

/-- C2: assuming the digest function injective (the collision-freedom
the source assumes of MD5), any two distinct discovered files that read
cleanly and hold identical byte content end up in the same final
duplicate group, and two files whose contents differ never share a final
group. -/
theorem c2_content_grouping {D : Type} [DecidableEq D]
    {hashFn : List Byte → D} (hinj : Function.Injective hashFn)
    {cfg : Config} {fs : FSTree} {r : CoreResult D} {pa pb : FPath}
    {fa fb : FileInfo} (hr : runCore hashFn cfg fs = .ok r)
    (hla : lookupTree fs pa = some (.file fa))
    (hlb : lookupTree fs pb = some (.file fb)) :
    (pa ∈ r.files → pb ∈ r.files → pa ≠ pb → fa.clean → fb.clean →
      fa.content = fb.content → sameGroup r.dup pa pb) ∧
    (fa.content ≠ fb.content → ¬sameGroup r.dup pa pb) := by
  obtain ⟨m, errs1, sizeBar1, st, hsl, hhl, hre⟩ := runCore_ok_elim hr
  have hdup : r.dup = groupDup st.pd := by rw [hre]
  have hfiles : r.files = (discoverPhase cfg fs).1 := by rw [hre]
  have hnd : (st.pd.map Prod.fst).Nodup := by
    refine hashLoop_ok_nodup _ _ hhl ?_
    simp [hashSt0]
  have hdgm : ∀ s, dget m s =
      (discoverPhase cfg fs).1.filter (sizeIs fs s) := by
    intro s
    have h0 := sizeLoop_ok_dget _ _ _ _ hsl s
    rw [show dget ([] : List (Nat × List FPath)) s = [] from rfl,
      List.nil_append] at h0
    exact h0
  have hpdget : ∀ key, dget st.pd key =
      ((candList m (dupsSizesOf m)).filter fun sf =>
        decide (candKey hashFn fs sf = some key)).map Prod.snd := by
    intro key
    have h0 := hashLoop_ok_dget _ _ hhl key
    simp only [hashSt0] at h0
    rw [show dget ([] : List ((D × Nat) × List FPath)) key = [] from rfl,
      List.nil_append] at h0
    exact h0
  constructor
  · intro hpaf hpbf hne hca hcb hcont
    rw [hfiles] at hpaf hpbf
    have hga : getsize fs pa = .ok fa.content.length := getsize_eq_ok hla hca.1
    have hgb : getsize fs pb = .ok fa.content.length := by
      rw [hcont]
      exact getsize_eq_ok hlb hcb.1
    have hpam : pa ∈ dget m fa.content.length := by
      rw [hdgm, List.mem_filter]
      exact ⟨hpaf, sizeIs_iff.mpr hga⟩
    have hpbm : pb ∈ dget m fa.content.length := by
      rw [hdgm, List.mem_filter]
      exact ⟨hpbf, sizeIs_iff.mpr hgb⟩
    have hlen2 : 1 < (dget m fa.content.length).length :=
      one_lt_length_of_two_mem hpam hpbm hne
    have hmem_ds : fa.content.length ∈ dupsSizesOf m := by
      unfold dupsSizesOf
      rw [List.mem_filter]
      refine ⟨dget_ne_mem_keys _ _ ?_, by simp [hlen2]⟩
      intro he
      rw [he] at hpam
      simp at hpam
    have hcanda : (fa.content.length, pa) ∈ candList m (dupsSizesOf m) := by
      unfold candList
      rw [List.mem_flatMap]
      exact ⟨_, hmem_ds, List.mem_map.mpr ⟨pa, hpam, rfl⟩⟩
    have hcandb : (fa.content.length, pb) ∈ candList m (dupsSizesOf m) := by
      unfold candList
      rw [List.mem_flatMap]
      exact ⟨_, hmem_ds, List.mem_map.mpr ⟨pb, hpbm, rfl⟩⟩
    have hroa : readOutcome fs pa = some fa.content :=
      readOutcome_of_clean hla hca
    have hrob : readOutcome fs pb = some fb.content :=
      readOutcome_of_clean hlb hcb
    have hka : candKey hashFn fs (fa.content.length, pa) =
        some (hashFn fa.content, fa.content.length) := by
      unfold candKey
      dsimp only
      rw [hroa]
      rfl
    have hkb : candKey hashFn fs (fa.content.length, pb) =
        some (hashFn fa.content, fa.content.length) := by
      unfold candKey
      dsimp only
      rw [hrob, ← hcont]
      rfl
    have hpain : pa ∈
        dget st.pd (hashFn fa.content, fa.content.length) := by
      rw [hpdget, List.mem_map]
      refine ⟨(fa.content.length, pa), ?_, rfl⟩
      rw [List.mem_filter]
      exact ⟨hcanda, by simp [hka]⟩
    have hpbin : pb ∈
        dget st.pd (hashFn fa.content, fa.content.length) := by
      rw [hpdget, List.mem_map]
      refine ⟨(fa.content.length, pb), ?_, rfl⟩
      rw [List.mem_filter]
      exact ⟨hcandb, by simp [hkb]⟩
    have hdne : dget st.pd (hashFn fa.content, fa.content.length) ≠ [] := by
      intro he
      rw [he] at hpain
      simp at hpain
    have hlen3 : 1 <
        (dget st.pd (hashFn fa.content, fa.content.length)).length :=
      one_lt_length_of_two_mem hpain hpbin hne
    rw [hdup]
    refine ⟨((hashFn fa.content, fa.content.length),
      dget st.pd (hashFn fa.content, fa.content.length)), ?_, hpain, hpbin⟩
    unfold groupDup
    rw [List.mem_filter]
    exact ⟨dget_entry_mem _ _ hdne, by simp [hlen3]⟩
  · intro hcne hsg
    rw [hdup] at hsg
    obtain ⟨kv, hkv, hpa2, hpb2⟩ := hsg
    have hkvpd : kv ∈ st.pd := List.mem_of_mem_filter hkv
    have hgetkv := dget_eq_of_mem st.pd kv hnd hkvpd
    rw [← hgetkv, hpdget] at hpa2 hpb2
    obtain ⟨sa, hcla, hkeya⟩ := mem_candFiltered hpa2
    obtain ⟨sb, hclb, hkeyb⟩ := mem_candFiltered hpb2
    obtain ⟨ca, hroa, hkea⟩ := candKey_some_elim hkeya
    obtain ⟨cb, hrob, hkeb⟩ := candKey_some_elim hkeyb
    have hca2 : ca = fa.content := readOutcome_some_content hroa hla
    have hcb2 : cb = fb.content := readOutcome_some_content hrob hlb
    have heq : hashFn fa.content = hashFn fb.content := by
      have ha : kv.1.1 = hashFn ca := by rw [hkea]
      have hb : kv.1.1 = hashFn cb := by rw [hkeb]
      rw [← hca2, ← hcb2, ← ha, hb]
    exact hcne (hinj heq)

/-- Witness for C2: in `fsA` the identical clean files x and y land in
the same final group, and x never shares a group with the singleton s. -/
theorem c2_content_grouping_wit :
    ∃ r, runCore idHash cfgA fsA = .ok r ∧
      sameGroup r.dup ["x"] ["y"] := by
  obtain ⟨r, hr⟩ : ∃ r, runCore idHash cfgA fsA = .ok r := ⟨_, rfl⟩
  have hla : lookupTree fsA ["x"] =
      some (.file (FileInfo.mk [7, 8] false false none)) := rfl
  have hlb : lookupTree fsA ["y"] =
      some (.file (FileInfo.mk [7, 8] false false none)) := rfl
  refine ⟨r, hr, ?_⟩
  refine (c2_content_grouping (fun a b h => h) hr hla hlb).1 ?_ ?_
    (by decide) ⟨rfl, rfl, rfl⟩ ⟨rfl, rfl, rfl⟩ rfl
  · have hv := Except.ok.inj hr
    rw [← hv]
    decide
  · have hv := Except.ok.inj hr
    rw [← hv]
    decide

/-- C9: with script output and print-hash enabled, any run whose final
duplicate mapping is non-empty dies with a `TypeError`: the
`(digest, size)` key tuple — whose size component is an `int` — is
passed to `'|'.join`, so machine-readable output including the hash is
never produced for a non-empty result. -/
theorem c9_script_hash_type_error {D : Type} [DecidableEq D]
    {hashFn : List Byte → D} (toS : D → String) {cfg : Config} {fs : FSTree}
    {r : CoreResult D} (hr : runCore hashFn cfg fs = .ok r)
    (hne : r.dup ≠ []) :
    run hashFn toS true true cfg fs = .error .typeError := by
  unfold run
  rw [hr]
  dsimp only
  cases hd : r.dup with
  | nil => exact absurd hd hne
  | cons kv rest =>
      obtain ⟨info, grp⟩ := kv
      simp [scriptOut, pyJoin, allStrs, pyValStr?]

/-- Witness for C9: scanning `fsA` — which has one duplicate pair — with
script output and print-hash raises `TypeError`. -/
theorem c9_script_hash_type_error_wit :
    run idHash (fun _ => "h") true true cfgA fsA = .error .typeError := by
  obtain ⟨r, hr⟩ : ∃ r, runCore idHash cfgA fsA = .ok r := ⟨_, rfl⟩
  refine c9_script_hash_type_error _ hr ?_
  have hv := Except.ok.inj hr
  rw [← hv]
  decide

/-- C10: discovery performs no path deduplication: with the same file
root configured twice, the path is appended to the file list once per
occurrence, hashed once per occurrence, and appears twice inside a
single final duplicate group — one physical file is reported as a
duplicate of itself. -/
theorem c10_no_dedup_self_duplicate {D : Type} [DecidableEq D]
    (hashFn : List Byte → D) (filters : List FileFilter) (progress : Bool)
    {p : FPath} {fi : FileInfo} {fs : FSTree}
    (hl : lookupTree fs p = some (.file fi)) (hc : fi.clean)
    (hf : checkFileFilters filters p = true) :
    ∃ r, runCore hashFn
        { paths := [p, p], filters := filters, progress := progress } fs =
        .ok r ∧ r.files = [p, p] ∧
      r.dup = [((hashFn fi.content, fi.content.length), [p, p])] := by
  obtain ⟨hsf, hof, hrf⟩ := hc
  have hdisc : discoverPhase
      { paths := [p, p], filters := filters, progress := progress } fs =
      ([p, p], []) := by
    unfold discoverPhase findRoot
    simp [hl, findFilesInPath, hf]
  have hg : getsize fs p = .ok fi.content.length := getsize_eq_ok hl hsf
  obtain ⟨bar1, hb1, hm1⟩ := prbAdd_isOk progress (sizeBar0 [p, p]) 1
    (by simp [sizeBar0])
  obtain ⟨bar2, hb2, hm2⟩ := prbAdd_isOk progress bar1 1
    (by rw [hm1]; simp [sizeBar0])
  have hsl : sizeLoop progress fs [p, p] [] [] (sizeBar0 [p, p]) =
      .ok ([(fi.content.length, [p, p])], [], bar2) := by
    unfold sizeLoop
    rw [hg, hb1]
    dsimp only
    unfold sizeLoop
    rw [hg, hb2]
    dsimp only
    unfold sizeLoop
    simp [dappend]
  have hds : dupsSizesOf [(fi.content.length, [p, p])] =
      [fi.content.length] := by
    simp [dupsSizesOf, dget]
  have hcand : candList [(fi.content.length, [p, p])]
      (dupsSizesOf [(fi.content.length, [p, p])]) =
      [(fi.content.length, p), (fi.content.length, p)] := by
    rw [hds]
    simp [candList, dget]
  have hht : hashTotalOf [(fi.content.length, [p, p])] =
      fi.content.length * 2 := by
    unfold hashTotalOf
    rw [hds]
    simp [dget]
  have hph1 : progress = true → fi.content = [] ∨
      (@hashSt0 D [(fi.content.length, [p, p])]).bar.maxVal ≠ 0 := by
    intro _
    by_cases hce : fi.content = []
    · exact Or.inl hce
    · right
      show hashTotalOf _ ≠ 0
      rw [hht]
      have hlen : fi.content.length ≠ 0 :=
        fun h0 => hce (List.length_eq_zero.mp h0)
      omega
  obtain ⟨barh1, hh1, hhm1⟩ :=
    hashFile_success fi.content.length hl hof hrf hph1
  have hph2 : progress = true → fi.content = [] ∨ barh1.maxVal ≠ 0 := by
    intro hpr
    rcases hph1 hpr with h | h
    · exact Or.inl h
    · right
      rw [hhm1]
      exact h
  obtain ⟨barh2, hh2, hhm2⟩ :=
    hashFile_success fi.content.length hl hof hrf hph2
  have hhloop : hashLoop progress hashFn fs
      [(fi.content.length, p), (fi.content.length, p)]
      (@hashSt0 D [(fi.content.length, [p, p])]) =
      .ok (HashSt.mk [((hashFn fi.content, fi.content.length), [p, p])] []
        barh2 (fi.content.length - fi.content.length)) := by
    unfold hashLoop
    rw [hh1]
    dsimp only
    unfold hashLoop
    rw [hh2]
    dsimp only
    unfold hashLoop
    simp [dappend, hashSt0]
  have hrc : runCore hashFn
      { paths := [p, p], filters := filters, progress := progress } fs =
      .ok (CoreResult.mk [p, p] [(fi.content.length, [p, p])]
        [fi.content.length] (fi.content.length * 2)
        [((hashFn fi.content, fi.content.length), [p, p])]
        [((hashFn fi.content, fi.content.length), [p, p])]
        [] bar2 barh2) := by
    unfold runCore
    rw [hdisc]
    dsimp only
    rw [hsl]
    dsimp only
    rw [hcand, hhloop]
    dsimp only
    rw [hds, hht]
    simp [groupDup]
  exact ⟨_, hrc, rfl, rfl⟩

/-- Witness for C10: the one-byte file of `fs10` given twice as a root is
its own duplicate group. -/
theorem c10_no_dedup_self_duplicate_wit :
    ∃ r, runCore idHash
        { paths := [["f"], ["f"]], filters := [], progress := true } fs10 =
        .ok r ∧ r.files = [["f"], ["f"]] ∧
      r.dup = [(([3], 1), [["f"], ["f"]])] := by
  have h := c10_no_dedup_self_duplicate idHash [] true
    (show lookupTree fs10 ["f"] =
      some (.file (FileInfo.mk [3] false false none)) from rfl)
    ⟨rfl, rfl, rfl⟩ rfl
  exact h

/-- C8: a discovered regular file is appended exactly when it satisfies
every configured filter — the conjunction `all(f.check(path))` — and a
file failing the filters is silently dropped: the walk with filters
equals the unfiltered walk with its file list filtered by the combined
predicate and its error list unchanged. -/
theorem c8_filters_conjunction (filters : List FileFilter) (p : FPath)
    (t : FSTree) :
    checkFileFilters filters p = filters.all (fun f => f p) ∧
    findFilesInPath filters p t =
      ((findFilesInPath [] p t).1.filter (checkFileFilters filters),
       (findFilesInPath [] p t).2) :=
  ⟨rfl, findFilesInPath_filter_comm filters p t⟩

end Filedup
